import Mathlib

/-!
Verification development for `src/alignment/batch_sequential_detector.py`
(`GPTBatchSequentialDetector`).

The Python code is shallowly embedded below.  External collaborators are
parameters of the embedded functions:

* `enc : String → Nat` models `len(self.encoder.encode(text))`, the token
  count of the tiktoken encoder;
* `lcsIdx : List Nat → List Nat → List Int` models `pylcs.lcs_sequence_idx`
  (its contract is the predicate `IsLcsAlignResult` below);
* `gpt_request : String → String → Nat → String` models
  `gpt_linebreak_detection_request(raw_text, record_id, batch_index)`, the
  cached oracle call (file-system cache is outside the model; the embedding
  logs each `(record_id, batch_index)` key that is requested).

A Python exception (`ZeroDivisionError`, `AttributeError`, `AssertionError`,
`IndexError`, `TypeError`) is modelled by the `none` / failure value of the
corresponding `Option`-returning definition.
-/

namespace BatchSequentialDetector

/-- Splitting a character list on whitespace runs, keeping only the non-empty
maximal runs of non-whitespace characters; `acc` is the current run,
reversed. -/
def splitWsAux : List Char → List Char → List (List Char)
  | [], acc => if acc = [] then [] else [acc.reverse]
  | c :: cs, acc =>
    if c.isWhitespace then
      if acc = [] then splitWsAux cs [] else acc.reverse :: splitWsAux cs []
    else splitWsAux cs (c :: acc)

/-- Python `str.split()` with no separator: split on whitespace runs and drop
the empty pieces (the detector's data is ASCII; the extra Unicode whitespace
code points recognised by Python do not occur). -/
def pySplit (s : String) : List String :=
  (splitWsAux s.data []).map (fun cs => String.mk cs)

/-- Splitting a character list at every newline; `acc` is the current piece,
reversed. -/
def splitNlAux : List Char → List Char → List (List Char)
  | [], acc => [acc.reverse]
  | c :: cs, acc =>
    if c = '\n' then acc.reverse :: splitNlAux cs []
    else splitNlAux cs (c :: acc)

/-- Python `str.splitlines()` restricted to `\n`-separated text (the only
separator occurring in the detector, which joins lines with `'\n'`): an empty
string yields no lines, and a single trailing newline does not produce a
trailing empty line. -/
def pySplitlines (s : String) : List String :=
  if s = "" then []
  else
    let parts := (splitNlAux s.data []).map (fun cs => String.mk cs)
    if parts.getLast? = some "" then parts.dropLast else parts

/-- The namedtuple `LCSTokenInfo = (token, length, source_line_id)`.  The
`token` field models `chr(offset + word_id)`: we keep the code point
`offset + word_id` itself (Python `chr` is injective on the code points the
detector produces). -/
structure LCSTokenInfo where
  token : Nat
  length : Nat
  source_line_id : Nat
deriving DecidableEq

/-- Python `word_dict.setdefault(word, len(word_dict))` where the dictionary
is modelled as the list of its keys in insertion order (the value of a key is
its index). Returns the updated dictionary and the id of `word`. -/
def setdefaultId (dict : List String) (w : String) : List String × Nat :=
  match dict.findIdx? (fun x => x = w) with
  | some i => (dict, i)
  | none => (dict ++ [w], dict.length)

/-- Inner loop of `tokenize_by_space_splited_word` over the words of one
input line: every word is appended as a token whose symbol is
`offset + word_dict.setdefault(word, len(word_dict))`. -/
def procInputWords (offset line_id : Nat) :
    List String → List String × List LCSTokenInfo → List String × List LCSTokenInfo
  | [], st => st
  | w :: ws, (dict, toks) =>
    let p := setdefaultId dict w
    procInputWords offset line_id ws
      (p.1, toks ++ [⟨offset + p.2, w.length, line_id⟩])

/-- Outer loop of `tokenize_by_space_splited_word` over the enumerated input
lines. -/
def procInputLines (offset : Nat) :
    List (Nat × String) → List String × List LCSTokenInfo → List String × List LCSTokenInfo
  | [], st => st
  | (i, line) :: rest, st =>
    procInputLines offset rest (procInputWords offset i (pySplit line) st)

/-- Output-side loop of `tokenize_by_space_splited_word` over enumerated
lines: a word is kept only `if word in word_dict`, with the symbol looked up
in the (read-only) dictionary. -/
def procOutputEnum (offset : Nat) (dict : List String) (ls : List (Nat × String)) :
    List LCSTokenInfo :=
  ls.flatMap (fun p =>
    (pySplit p.2).filterMap (fun w =>
      (dict.findIdx? (fun x => x = w)).map (fun i => ⟨offset + i, w.length, p.1⟩)))

/-- The static method `tokenize_by_space_splited_word(input_lines,
output_lines, offset)`. -/
def tokenize_by_space_splited_word (input_lines output_lines : List String)
    (offset : Nat) : List LCSTokenInfo × List LCSTokenInfo :=
  let st := procInputLines offset input_lines.enum ([], [])
  (st.2, procOutputEnum offset st.1 output_lines.enum)

/-- The final word dictionary built by the input-side loop of the tokenizer. -/
def inputWordDict (offset : Nat) (input_lines : List String) : List String :=
  (procInputLines offset input_lines.enum ([], [])).1

/-- Modelled from the spec: `tokenize_for_lcs`, called by
`lcs_sequence_alignment` but not defined in the available source (it comes
with the `text_segmenter` base module).  Per section 4.1 of the spec it is the
word-granularity encoder described there, i.e. exactly
`tokenize_by_space_splited_word` with the default offset `0`. -/
def tokenize_for_lcs (input_lines output_lines : List String) :
    List LCSTokenInfo × List LCSTokenInfo :=
  tokenize_by_space_splited_word input_lines output_lines 0

/-- Python `mapping.setdefault(output_line_id, set()).add(input_line_id)`:
the dict is an insertion-ordered association list with `Finset` values. -/
def dictAddTo : List (Nat × Finset Nat) → Nat → Nat → List (Nat × Finset Nat)
  | [], k, v => [(k, {v})]
  | (k', s) :: rest, k, v =>
    if k' = k then (k', insert v s) :: rest else (k', s) :: dictAddTo rest k v

/-- Python `if p in mapping: mapping.pop(p)`: remove the entry with key `k`
(a no-op when the key is absent). -/
def dictPop (m : List (Nat × Finset Nat)) (k : Nat) : List (Nat × Finset Nat) :=
  m.filter (fun q => q.1 != k)

/-- Python `l[i] += d` for a list of numbers (all indices produced by the
aligner are in range, so the out-of-range no-op of `List.set` is never
exercised). -/
def incAt (l : List Nat) (i d : Nat) : List Nat :=
  l.set i (l.getD i 0 + d)

/-- The mutable state of the matching loop of `lcs_sequence_alignment`:
`mapping`, `input_hit_rate` and `output_hit_rate` (the hit counters are
integers until the normalization step). -/
structure AlignState where
  mapping : List (Nat × Finset Nat)
  input_hit : List Nat
  output_hit : List Nat
deriving DecidableEq

/-- Python list indexing `l[i]` with an `int` index: negative indices address
from the end, out-of-range indexing raises (`none`). -/
def pyGetInt {α : Type} (l : List α) (i : Int) : Option α :=
  if 0 ≤ i then l.get? i.toNat
  else if (-i).toNat ≤ l.length then l.get? (l.length - (-i).toNat)
  else none

/-- The loop `for input_token_index, output_token_index in
enumerate(aligned_indexes)` of `lcs_sequence_alignment`: every pair matched by
the LCS records the output line as mapping to the input line and accumulates
both word lengths into the per-line hit counters. -/
def accumAlign (inToks outToks : List LCSTokenInfo) :
    List (Nat × Int) → AlignState → Option AlignState
  | [], st => some st
  | (i, j) :: rest, st =>
    if j = -1 then accumAlign inToks outToks rest st
    else
      match inToks.get? i, pyGetInt outToks j with
      | some ti, some tj =>
        accumAlign inToks outToks rest
          ⟨dictAddTo st.mapping tj.source_line_id ti.source_line_id,
           incAt st.input_hit ti.source_line_id ti.length,
           incAt st.output_hit tj.source_line_id tj.length⟩
      | _, _ => none

/-- Python `sum(map(len, line.split()))`: the total character count of the
words of a line. -/
def lineWordLen (s : String) : Nat :=
  ((pySplit s).map String.length).sum

/-- The normalization loop `hit_rate[p] /= sum(map(len, lines[p].split()))`:
dividing by a zero total raises `ZeroDivisionError`, modelled by `none`.  The
two lists always have equal length (`[0 for _ in lines]`). -/
def normalizeRates : List Nat → List String → Option (List ℚ)
  | [], [] => some []
  | h :: hs, line :: rest =>
    if lineWordLen line = 0 then none
    else
      match normalizeRates hs rest with
      | some t => some (((h : ℚ) / (lineWordLen line : ℚ)) :: t)
      | none => none
  | _, _ => none

/-- The confidence filter `for p, i in enumerate(output_hit_rate): if i < 0.6:
if p in mapping: mapping.pop(p)`. -/
def popLow : List (Nat × ℚ) → List (Nat × Finset Nat) → List (Nat × Finset Nat)
  | [], m => m
  | (p, r) :: rest, m => popLow rest (if r < 3 / 5 then dictPop m p else m)

/-- The static method `lcs_sequence_alignment(input_lines, output_lines)`
(already-split branch; `detect` passes strings, split by `pySplitlines` at the
call site exactly as the `isinstance(…, str)` branch does).  Returns `none`
when the Python code raises (`ZeroDivisionError` on a zero-word line,
`IndexError` on an out-of-contract `pylcs` result). -/
def lcs_sequence_alignment (lcsIdx : List Nat → List Nat → List Int)
    (input_lines output_lines : List String) :
    Option (List (Nat × Finset Nat) × List ℚ × List ℚ) :=
  let toks := tokenize_for_lcs input_lines output_lines
  let input_tokens := toks.1.map LCSTokenInfo.token
  let output_tokens := toks.2.map LCSTokenInfo.token
  let aligned_indexes := lcsIdx input_tokens output_tokens
  match accumAlign toks.1 toks.2 aligned_indexes.enum
      ⟨[], List.replicate input_lines.length 0, List.replicate output_lines.length 0⟩ with
  | none => none
  | some st =>
    match normalizeRates st.input_hit input_lines,
          normalizeRates st.output_hit output_lines with
    | some irate, some orate => some (popLow orate.enum st.mapping, irate, orate)
    | _, _ => none

/-- The `for lineid in range(begin_lineid, len(lines))` loop of `gen_batch`:
`buf` accumulates newline-joined lines; as soon as the candidate buffer
reaches the token limit, the buffer so far and the id of the line that was
not added are returned.  After a completed loop Python returns
`(buf, lineid + 1)` when `buf` is non-empty and falls through to `None`
otherwise; at that point `lineid = len(lines) - 1`, so the returned end id is
`len(lines)`, which is the value of the recursion variable here.

`batchCandidate buf line` is Python
`tmp = (buf + '\n' if len(buf)>0 else '') + line`. -/
def batchCandidate (buf line : String) : String :=
  (if buf.length > 0 then buf ++ "\n" else "") ++ line

def genBatchLoop (enc : String → Nat) (token_limit : Nat) :
    List String → Nat → String → Option (String × Nat)
  | [], lineid, buf => if buf ≠ "" then some (buf, lineid) else none
  | line :: rest, lineid, buf =>
    if token_limit ≤ enc (batchCandidate buf line) then some (buf, lineid)
    else genBatchLoop enc token_limit rest (lineid + 1) (batchCandidate buf line)

/-- The method `gen_batch(lines, begin_lineid)`.  The initial
`assert begin_lineid < len(lines)` raises for an out-of-range start, which is
also modelled by `none`.  The index loop over `range(begin_lineid,
len(lines))` is embedded as the structural loop `genBatchLoop` over the
remaining lines `lines[begin_lineid:]`, carrying the current line id. -/
def gen_batch (enc : String → Nat) (token_limit : Nat) (lines : List String)
    (begin_lineid : Nat) : Option (String × Nat) :=
  if begin_lineid < lines.length then
    genBatchLoop enc token_limit (lines.drop begin_lineid) begin_lineid ""
  else none

/-- The method `detect(lines, record_id)`.  The result is the returned
decision list (or `none` when the Python code raises) paired with the log of
`(record_id, batch_index)` keys passed to the oracle request.

The `while todo_lineid < len(lines)` loop is embedded as a single guarded
iteration: the source binds `align_map` to the *3-tuple* returned by
`lcs_sequence_alignment`, and every continuation of the loop body then invokes
a dict method on that tuple — `align_map.keys()` / `align_map.pop(…)` when
`next_line_id < len(lines)` and `align_map.values()` otherwise — each of which
raises `AttributeError`.  Hence no iteration of the loop ever completes:
every iteration either `break`s (the noise-floor check), returns by falling
out of the loop, or raises.  The loop condition is therefore tested at most
once with the body running at most once. -/
def detect (enc : String → Nat) (token_limit : Nat)
    (lcsIdx : List Nat → List Nat → List Int)
    (gpt_request : String → String → Nat → String)
    (lines : List String) (record_id : String) :
    Option (List Bool) × List (String × Nat) :=
  let detections := List.replicate (lines.length - 1) false
  let todo_lineid := 0
  let batch_id := 0
  if todo_lineid < lines.length then
    match gen_batch enc token_limit lines todo_lineid with
    | none => (none, [])
    | some (batch, next_line_id) =>
      if enc batch < 20 then (some detections, [])
      else
        let output_text := gpt_request batch record_id batch_id
        let log := [(record_id, batch_id)]
        match lcs_sequence_alignment lcsIdx (pySplitlines batch)
            (pySplitlines output_text) with
        | none => (none, log)
        | some _align_map =>
          let input_line_offset := next_line_id - (pySplitlines batch).length
          match lines.get? input_line_offset, (pySplitlines batch).get? 0 with
          | some l0, some b0 =>
            if l0 = b0 then
              (none, log)
            else (none, log)
          | _, _ => (none, log)
  else (some detections, [])

/-- Fuelled longest-common-subsequence length (structural recursion on the
fuel; any fuel of at least the summed lengths gives the true value). -/
def lcsLenFuel : Nat → List Nat → List Nat → Nat
  | _, [], _ => 0
  | _, _ :: _, [] => 0
  | 0, _ :: _, _ :: _ => 0
  | fuel + 1, a :: as, b :: bs =>
    if a = b then lcsLenFuel fuel as bs + 1
    else max (lcsLenFuel fuel (a :: as) bs) (lcsLenFuel fuel as (b :: bs))

/-- Length of a longest common subsequence of two symbol strings; the
characteristic quantity of `pylcs.lcs_sequence_idx`. -/
def lcsLen (a b : List Nat) : Nat :=
  lcsLenFuel (a.length + b.length) a b

/-- Contract of `pylcs.lcs_sequence_idx(a, b) = r`: one entry per position of
`a`, each entry `-1` or a matching position of `b` carrying the same symbol,
matched positions strictly increasing, and the number of matched positions is
the length of a longest common subsequence of `a` and `b`. -/
def IsLcsAlignResult (a b : List Nat) (r : List Int) : Prop :=
  r.length = a.length ∧
  (∀ i, i < r.length →
    r.getD i 0 = -1 ∨
    ∃ j, j < b.length ∧ r.getD i 0 = (j : Int) ∧ a.getD i 0 = b.getD j 0) ∧
  (∀ k, k < r.length → ∀ i, i < k →
    r.getD i 0 ≠ -1 → r.getD k 0 ≠ -1 → r.getD i 0 < r.getD k 0) ∧
  (r.filter (fun j => j != -1)).length = lcsLen a b

instance (a b : List Nat) (r : List Int) : Decidable (IsLcsAlignResult a b r) := by
  unfold IsLcsAlignResult
  exact inferInstance

/-- First-seen de-duplication of a word stream: the word dictionary of the
spec, as the list of its keys in insertion order. -/
def firstSeen (ws : List String) : List String :=
  ws.foldl (fun d w => if w ∈ d then d else d ++ [w]) []

/-- Every id of the dictionary is the symbol (minus offset) of some already
emitted input token. -/
def DictCovered (offset : Nat) (dict : List String) (toks : List LCSTokenInfo) : Prop :=
  ∀ id, id < dict.length → ∃ u ∈ toks, u.token = offset + id

/-! Helper lemmas. -/

/-- The dictionary component of `setdefaultId` is insert-if-absent. -/
theorem setdefaultId_fst (dict : List String) (w : String) :
    (setdefaultId dict w).1 = if w ∈ dict then dict else dict ++ [w] := by
  unfold setdefaultId
  cases hf : dict.findIdx? (fun x => x = w) with
  | none =>
    have hmem : w ∉ dict := by
      intro hw
      have h2 := List.findIdx?_eq_none_iff.mp hf w hw
      simp at h2
    rw [if_neg hmem]
  | some i =>
    have hmem : w ∈ dict := by
      obtain ⟨h, hp, -⟩ := List.findIdx?_eq_some_iff_getElem.mp hf
      have : dict[i] = w := by simpa using hp
      exact this ▸ List.getElem_mem h
    rw [if_pos hmem]

/-- The dictionary after the word loop is the first-seen fold of the words. -/
theorem procInputWords_dict (offset line_id : Nat) :
    ∀ (ws : List String) (dict : List String) (toks : List LCSTokenInfo),
      (procInputWords offset line_id ws (dict, toks)).1 =
        ws.foldl (fun d w => if w ∈ d then d else d ++ [w]) dict := by
  intro ws
  induction ws with
  | nil => intro dict toks; rfl
  | cons w ws ih =>
    intro dict toks
    rw [List.foldl_cons, ← setdefaultId_fst]
    exact ih (setdefaultId dict w).1 _

/-- The dictionary after the line loop is the first-seen fold of all words. -/
theorem procInputLines_dict (offset : Nat) :
    ∀ (ls : List (Nat × String)) (dict : List String) (toks : List LCSTokenInfo),
      (procInputLines offset ls (dict, toks)).1 =
        (ls.flatMap (fun p => pySplit p.2)).foldl
          (fun d w => if w ∈ d then d else d ++ [w]) dict := by
  intro ls
  induction ls with
  | nil => intro dict toks; rfl
  | cons p rest ih =>
    intro dict toks
    obtain ⟨i, line⟩ := p
    rw [List.flatMap_cons, List.foldl_append, ← procInputWords_dict offset i _ dict toks]
    have hmid : procInputWords offset i (pySplit line) (dict, toks) =
        ((procInputWords offset i (pySplit line) (dict, toks)).1,
         (procInputWords offset i (pySplit line) (dict, toks)).2) := rfl
    show (procInputLines offset rest (procInputWords offset i (pySplit line) (dict, toks))).1 = _
    rw [hmid]
    exact ih _ _

/-- A flat map over enumerated pairs that ignores the index is a flat map
over the underlying list. -/
theorem flatMap_snd_eq {α : Type} (f : String → List α) :
    ∀ (l : List (Nat × String)), l.flatMap (fun p => f p.2) =
      (l.map Prod.snd).flatMap f := by
  intro l
  induction l with
  | nil => rfl
  | cons p rest ih => rw [List.flatMap_cons, List.map_cons, List.flatMap_cons, ih]

/-- The word-loop step preserves symbol coverage of the dictionary. -/
theorem procInputWords_covered (offset line_id : Nat) :
    ∀ (ws : List String) (dict : List String) (toks : List LCSTokenInfo),
      DictCovered offset dict toks →
      DictCovered offset (procInputWords offset line_id ws (dict, toks)).1
        (procInputWords offset line_id ws (dict, toks)).2 := by
  intro ws
  induction ws with
  | nil => intro dict toks h; exact h
  | cons w ws ih =>
    intro dict toks h
    have key : DictCovered offset (setdefaultId dict w).1
        (toks ++ [⟨offset + (setdefaultId dict w).2, w.length, line_id⟩]) := by
      unfold setdefaultId
      cases hf : dict.findIdx? (fun x => x = w) with
      | none =>
        simp only [hf]
        intro id hid
        rw [List.length_append, List.length_singleton] at hid
        rcases Nat.lt_succ_iff_lt_or_eq.mp hid with hlt | heq
        · obtain ⟨u, hu, ht⟩ := h id hlt
          exact ⟨u, List.mem_append_left _ hu, ht⟩
        · refine ⟨⟨offset + dict.length, w.length, line_id⟩,
            List.mem_append_right _ (List.mem_singleton.mpr rfl), ?_⟩
          rw [heq]
      | some i =>
        simp only [hf]
        intro id hid
        obtain ⟨u, hu, ht⟩ := h id hid
        exact ⟨u, List.mem_append_left _ hu, ht⟩
    exact ih (setdefaultId dict w).1 _ key

/-- The line loop preserves symbol coverage of the dictionary. -/
theorem procInputLines_covered (offset : Nat) :
    ∀ (ls : List (Nat × String)) (dict : List String) (toks : List LCSTokenInfo),
      DictCovered offset dict toks →
      DictCovered offset (procInputLines offset ls (dict, toks)).1
        (procInputLines offset ls (dict, toks)).2 := by
  intro ls
  induction ls with
  | nil => intro dict toks h; exact h
  | cons p rest ih =>
    intro dict toks h
    obtain ⟨i, line⟩ := p
    have key := procInputWords_covered offset i (pySplit line) dict toks h
    have hmid : procInputWords offset i (pySplit line) (dict, toks) =
        ((procInputWords offset i (pySplit line) (dict, toks)).1,
         (procInputWords offset i (pySplit line) (dict, toks)).2) := rfl
    show DictCovered offset (procInputLines offset rest
        (procInputWords offset i (pySplit line) (dict, toks))).1 _
    rw [hmid]
    exact ih _ _ key

/-- Every token produced by the output-side loop carries a symbol that the
dictionary-coverage invariant traces back to an input token. -/
theorem procOutputEnum_symbol_covered (offset : Nat) (dict : List String)
    (ls : List (Nat × String)) (toks : List LCSTokenInfo)
    (hcov : DictCovered offset dict toks) :
    ∀ t ∈ procOutputEnum offset dict ls, ∃ u ∈ toks, u.token = t.token := by
  intro t ht
  unfold procOutputEnum at ht
  obtain ⟨p, -, ht2⟩ := List.mem_flatMap.mp ht
  obtain ⟨w, -, ht3⟩ := List.mem_filterMap.mp ht2
  cases hfi : dict.findIdx? (fun x => x = w) with
  | none => rw [hfi] at ht3; simp at ht3
  | some i =>
    rw [hfi] at ht3
    simp only [Option.map_some'] at ht3
    have hi : i < dict.length := by
      obtain ⟨hlen, -⟩ := List.findIdx?_eq_some_iff_getElem.mp hfi
      exact hlen
    obtain ⟨u, hu, htok⟩ := hcov i hi
    obtain rfl := Option.some.inj ht3
    exact ⟨u, hu, htok⟩

/-- Loop invariant of `genBatchLoop`: the buffer is either empty or was
admitted under the budget, and so is any returned batch text. -/
theorem genBatchLoop_budget (enc : String → Nat) (limit : Nat) :
    ∀ (rest : List String) (lineid : Nat) (buf t : String) (e : Nat),
      (buf = "" ∨ enc buf < limit) →
      genBatchLoop enc limit rest lineid buf = some (t, e) →
      enc t < limit ∨ t = "" := by
  intro rest
  induction rest with
  | nil =>
    intro lineid buf t e hinv h
    unfold genBatchLoop at h
    split at h
    · simp only [Option.some.injEq, Prod.mk.injEq] at h
      rcases h with ⟨ht, -⟩
      subst ht
      exact hinv.symm
    · exact absurd h (by simp)
  | cons line rest ih =>
    intro lineid buf t e hinv h
    unfold genBatchLoop at h
    by_cases hc : limit ≤ enc (batchCandidate buf line)
    · rw [if_pos hc] at h
      simp only [Option.some.injEq, Prod.mk.injEq] at h
      rcases h with ⟨ht, -⟩
      subst ht
      exact hinv.symm
    · rw [if_neg hc] at h
      exact ih (lineid + 1) _ t e (Or.inr (Nat.lt_of_not_le hc)) h

/-- The confidence filter only removes entries. -/
theorem mem_of_mem_popLow :
    ∀ (l : List (Nat × ℚ)) (m : List (Nat × Finset Nat)) (q : Nat × Finset Nat),
      q ∈ popLow l m → q ∈ m := by
  intro l
  induction l with
  | nil => intro m q h; exact h
  | cons pr rest ih =>
    intro m q h
    obtain ⟨p, r⟩ := pr
    unfold popLow at h
    have h2 := ih _ q h
    by_cases hc : r < 3 / 5
    · rw [if_pos hc] at h2
      unfold dictPop at h2
      exact (List.mem_filter.mp h2).1
    · rwa [if_neg hc] at h2

/-- A key paired in the rate list with a rate strictly below 0.6 does not
survive the confidence filter. -/
theorem not_mem_popLow :
    ∀ (l : List (Nat × ℚ)) (m : List (Nat × Finset Nat)) (p : Nat) (r : ℚ),
      (p, r) ∈ l → r < 3 / 5 → ∀ s : Finset Nat, (p, s) ∉ popLow l m := by
  intro l
  induction l with
  | nil => intro m p r h; cases h
  | cons pr rest ih =>
    intro m p r hmem hr s hcontra
    obtain ⟨p', r'⟩ := pr
    unfold popLow at hcontra
    rcases List.mem_cons.mp hmem with heq | htail
    · obtain ⟨hp, hrr⟩ := Prod.mk.injEq .. ▸ heq.symm
      subst hp
      subst hrr
      rw [if_pos hr] at hcontra
      have h2 := mem_of_mem_popLow rest _ _ hcontra
      unfold dictPop at h2
      have h3 := (List.mem_filter.mp h2).2
      simp at h3
    · exact ih _ p r htail hr s hcontra

/-- Positional indexing as membership of the enumerated list (general start
index). -/
theorem get?_mem_enumFrom {α : Type} :
    ∀ (l : List α) (k i : Nat) (a : α), l.get? i = some a →
      (k + i, a) ∈ l.enumFrom k := by
  intro l
  induction l with
  | nil => intro k i a h; simp at h
  | cons x xs ih =>
    intro k i a h
    cases i with
    | zero =>
      simp only [List.get?] at h
      obtain rfl := Option.some.inj h
      simp [List.enumFrom]
    | succ n =>
      simp only [List.get?] at h
      have h2 := ih (k + 1) n a h
      have h3 : k + (n + 1) = k + 1 + n := by omega
      rw [List.enumFrom, h3]
      exact List.mem_cons_of_mem _ h2

/-- Positional indexing as membership of the enumerated list. -/
theorem get?_mem_enum {α : Type} (l : List α) (i : Nat) (a : α)
    (h : l.get? i = some a) : (i, a) ∈ l.enum := by
  have h2 := get?_mem_enumFrom l 0 i a h
  rw [Nat.zero_add] at h2
  exact h2

/-- `setdefaultId` only appends to the dictionary. -/
theorem setdefaultId_extends (dict : List String) (w : String) :
    ∃ tail, (setdefaultId dict w).1 = dict ++ tail := by
  rw [setdefaultId_fst]
  by_cases h : w ∈ dict
  · exact ⟨[], by rw [if_pos h, List.append_nil]⟩
  · exact ⟨[w], by rw [if_neg h]⟩

/-- The word loop only appends to the dictionary. -/
theorem procInputWords_extends (offset line_id : Nat) :
    ∀ (ws dict : List String) (toks : List LCSTokenInfo),
      ∃ tail, (procInputWords offset line_id ws (dict, toks)).1 = dict ++ tail := by
  intro ws
  induction ws with
  | nil => intro dict toks; exact ⟨[], (List.append_nil dict).symm⟩
  | cons w ws ih =>
    intro dict toks
    obtain ⟨t2, h2⟩ := ih (setdefaultId dict w).1
      (toks ++ [⟨offset + (setdefaultId dict w).2, w.length, line_id⟩])
    obtain ⟨t1, h1⟩ := setdefaultId_extends dict w
    refine ⟨t1 ++ t2, ?_⟩
    have hstep : procInputWords offset line_id (w :: ws) (dict, toks) =
        procInputWords offset line_id ws ((setdefaultId dict w).1,
          toks ++ [⟨offset + (setdefaultId dict w).2, w.length, line_id⟩]) := rfl
    rw [hstep, h2, h1, List.append_assoc]

/-- The line loop only appends to the dictionary. -/
theorem procInputLines_extends (offset : Nat) :
    ∀ (ls : List (Nat × String)) (dict : List String) (toks : List LCSTokenInfo),
      ∃ tail, (procInputLines offset ls (dict, toks)).1 = dict ++ tail := by
  intro ls
  induction ls with
  | nil => intro dict toks; exact ⟨[], (List.append_nil dict).symm⟩
  | cons p rest ih =>
    intro dict toks
    obtain ⟨i, line⟩ := p
    obtain ⟨t1, h1⟩ := procInputWords_extends offset i (pySplit line) dict toks
    obtain ⟨t2, h2⟩ := ih (procInputWords offset i (pySplit line) (dict, toks)).1
      (procInputWords offset i (pySplit line) (dict, toks)).2
    refine ⟨t1 ++ t2, ?_⟩
    have hstep : procInputLines offset ((i, line) :: rest) (dict, toks) =
        procInputLines offset rest
          (procInputWords offset i (pySplit line) (dict, toks)) := rfl
    rw [hstep, ← @Prod.mk.eta _ _ (procInputWords offset i (pySplit line) (dict, toks)),
      h2, h1, List.append_assoc]

/-- A successful find in a dictionary is stable under appending entries. -/
theorem findIdx?_append_of_some {p : String → Bool} (d ext : List String) (i : Nat)
    (hf : d.findIdx? p = some i) : (d ++ ext).findIdx? p = some i := by
  obtain ⟨h, hp, hmin⟩ := List.findIdx?_eq_some_iff_getElem.mp hf
  apply List.findIdx?_eq_some_iff_getElem.mpr
  have hlen : i < (d ++ ext).length := by
    rw [List.length_append]; omega
  refine ⟨hlen, ?_, ?_⟩
  · rw [List.getElem_append_left h]
    exact hp
  · intro j hj
    rw [List.getElem_append_left (Nat.lt_trans hj h)]
    exact hmin j hj

/-- A word absent from the dictionary is found exactly at the position where
it is appended. -/
theorem findIdx?_append_new (d ext : List String) (w : String)
    (hnone : d.findIdx? (fun x => x = w) = none) :
    (d ++ w :: ext).findIdx? (fun x => x = w) = some d.length := by
  apply List.findIdx?_eq_some_iff_getElem.mpr
  have hlen : d.length < (d ++ w :: ext).length := by
    rw [List.length_append]; simp
  refine ⟨hlen, ?_, ?_⟩
  · rw [List.getElem_append_right (Nat.le_refl d.length)]
    simp
  · intro j hj
    rw [List.getElem_append_left hj]
    have h2 := List.findIdx?_eq_none_iff.mp hnone (d[j]) (List.getElem_mem hj)
    simpa using h2

/-- The id assigned by `setdefaultId` is the one any extension of the
resulting dictionary assigns to that word. -/
theorem setdefaultId_find_stable (dict : List String) (w : String) (ext : List String) :
    ((setdefaultId dict w).1 ++ ext).findIdx? (fun x => x = w) =
      some (setdefaultId dict w).2 := by
  unfold setdefaultId
  cases hf : dict.findIdx? (fun x => x = w) with
  | some i =>
    simp only [hf]
    exact findIdx?_append_of_some dict ext i hf
  | none =>
    simp only [hf]
    rw [List.append_assoc]
    exact findIdx?_append_new dict ext w hf

/-- Tokens emitted by the input word loop coincide with the output-side
tokenization of the same words against any extension `D` of the resulting
dictionary. -/
theorem procInputWords_toks (offset line_id : Nat) :
    ∀ (ws dict : List String) (toks : List LCSTokenInfo) (D : List String),
      (∃ tail, D = (procInputWords offset line_id ws (dict, toks)).1 ++ tail) →
      (procInputWords offset line_id ws (dict, toks)).2 =
        toks ++ ws.filterMap (fun w =>
          (D.findIdx? (fun x => x = w)).map
            (fun i => ⟨offset + i, w.length, line_id⟩)) := by
  intro ws
  induction ws with
  | nil =>
    intro dict toks D hD
    simp [procInputWords]
  | cons w ws ih =>
    intro dict toks D hD
    have hstep : procInputWords offset line_id (w :: ws) (dict, toks) =
        procInputWords offset line_id ws ((setdefaultId dict w).1,
          toks ++ [⟨offset + (setdefaultId dict w).2, w.length, line_id⟩]) := rfl
    rw [hstep] at hD ⊢
    have hfind : D.findIdx? (fun x => x = w) = some (setdefaultId dict w).2 := by
      obtain ⟨tail, hDeq⟩ := hD
      obtain ⟨tail2, hext⟩ := procInputWords_extends offset line_id ws
        (setdefaultId dict w).1
        (toks ++ [⟨offset + (setdefaultId dict w).2, w.length, line_id⟩])
      rw [hDeq, hext, List.append_assoc]
      exact setdefaultId_find_stable dict w (tail2 ++ tail)
    rw [ih _ _ D hD, List.filterMap_cons, hfind]
    simp only [Option.map_some']
    rw [List.append_assoc]
    rfl

/-- Tokens emitted by the input line loop coincide with the output-side
tokenization of the same lines against any extension `D` of the resulting
dictionary. -/
theorem procInputLines_toks (offset : Nat) :
    ∀ (ls : List (Nat × String)) (dict : List String) (toks : List LCSTokenInfo)
      (D : List String),
      (∃ tail, D = (procInputLines offset ls (dict, toks)).1 ++ tail) →
      (procInputLines offset ls (dict, toks)).2 =
        toks ++ procOutputEnum offset D ls := by
  intro ls
  induction ls with
  | nil =>
    intro dict toks D hD
    simp [procInputLines, procOutputEnum]
  | cons p rest ih =>
    intro dict toks D hD
    obtain ⟨i, line⟩ := p
    have hstep : procInputLines offset ((i, line) :: rest) (dict, toks) =
        procInputLines offset rest
          (procInputWords offset i (pySplit line) (dict, toks)) := rfl
    rw [hstep] at hD ⊢
    rw [← @Prod.mk.eta _ _ (procInputWords offset i (pySplit line) (dict, toks))]
      at hD ⊢
    have hDw : ∃ tail, D =
        (procInputWords offset i (pySplit line) (dict, toks)).1 ++ tail := by
      obtain ⟨tail, hDeq⟩ := hD
      obtain ⟨tail2, hext⟩ := procInputLines_extends offset rest
        (procInputWords offset i (pySplit line) (dict, toks)).1
        (procInputWords offset i (pySplit line) (dict, toks)).2
      exact ⟨tail2 ++ tail, by rw [hDeq, hext, List.append_assoc]⟩
    rw [ih _ _ D hD]
    rw [procInputWords_toks offset i (pySplit line) dict toks D hDw]
    show _ = toks ++ procOutputEnum offset D ((i, line) :: rest)
    unfold procOutputEnum
    rw [List.flatMap_cons, List.append_assoc]

/-- For identical input and output line lists the tokenizer produces the same
token sequence on both sides. -/
theorem tokenize_self_eq (offset : Nat) (L : List String) :
    (tokenize_by_space_splited_word L L offset).2 =
      (tokenize_by_space_splited_word L L offset).1 := by
  show procOutputEnum offset (procInputLines offset L.enum ([], [])).1 L.enum =
    (procInputLines offset L.enum ([], [])).2
  rw [procInputLines_toks offset L.enum [] []
    (procInputLines offset L.enum ([], [])).1 ⟨[], (List.append_nil _).symm⟩]
  rfl

/-- Per-line word tokens with an abstract symbol assignment: the shape of the
output tokenization when no word is dropped. -/
def diagTokens (sym : String → Nat) (ls : List (Nat × String)) : List LCSTokenInfo :=
  ls.flatMap (fun p => (pySplit p.2).map (fun w => ⟨sym w, w.length, p.1⟩))

/-- Membership is preserved by the first-seen fold. -/
theorem mem_foldl_insert : ∀ (ws d : List String) (w : String),
    w ∈ d ∨ w ∈ ws →
      w ∈ ws.foldl (fun d w => if w ∈ d then d else d ++ [w]) d := by
  intro ws
  induction ws with
  | nil =>
    intro d w h
    rcases h with h | h
    · exact h
    · cases h
  | cons w' ws ih =>
    intro d w h
    rw [List.foldl_cons]
    apply ih
    rcases h with h | h
    · left
      by_cases hc : w' ∈ d
      · rwa [if_pos hc]
      · rw [if_neg hc]; exact List.mem_append_left _ h
    · rcases List.mem_cons.mp h with rfl | h2
      · left
        by_cases hc : w ∈ d
        · rwa [if_pos hc]
        · rw [if_neg hc]; exact List.mem_append_right _ (List.mem_singleton.mpr rfl)
      · right; exact h2

/-- Every word of the stream appears in its first-seen de-duplication. -/
theorem mem_firstSeen (ws : List String) (w : String) (h : w ∈ ws) :
    w ∈ firstSeen ws :=
  mem_foldl_insert ws [] w (Or.inr h)

/-- A `filterMap` that never drops is a `map`. -/
theorem filterMap_eq_map_of_some {α β : Type} (f : α → Option β) (g : α → β) :
    ∀ (l : List α), (∀ x ∈ l, f x = some (g x)) → l.filterMap f = l.map g := by
  intro l
  induction l with
  | nil => intro h; rfl
  | cons x xs ih =>
    intro h
    rw [List.filterMap_cons, h x (List.mem_cons_self x xs), List.map_cons,
      ih (fun y hy => h y (List.mem_cons_of_mem x hy))]

/-- When every word of every line is found in the dictionary, the output-side
tokenization has the per-line mapped shape. -/
theorem procOutputEnum_eq_diagTokens (offset : Nat) (D : List String) :
    ∀ (ls : List (Nat × String)),
      (∀ p ∈ ls, ∀ w ∈ pySplit p.2, ∃ j, D.findIdx? (fun x => x = w) = some j) →
      procOutputEnum offset D ls =
        diagTokens (fun w => offset + (D.findIdx? (fun x => x = w)).getD 0) ls := by
  intro ls
  induction ls with
  | nil => intro hin; rfl
  | cons p rest ih =>
    intro hin
    unfold procOutputEnum diagTokens
    rw [List.flatMap_cons, List.flatMap_cons]
    have hhead : (pySplit p.2).filterMap (fun w =>
        (D.findIdx? (fun x => x = w)).map
          (fun i => ⟨offset + i, w.length, p.1⟩)) =
        (pySplit p.2).map (fun w =>
          (⟨offset + (D.findIdx? (fun x => x = w)).getD 0, w.length, p.1⟩ :
            LCSTokenInfo)) := by
      apply filterMap_eq_map_of_some
      intro w hw
      obtain ⟨j, hj⟩ := hin p (List.mem_cons_self p rest) w hw
      rw [hj]
      rfl
    rw [hhead]
    have htail := ih (fun q hq => hin q (List.mem_cons_of_mem p hq))
    unfold procOutputEnum diagTokens at htail
    rw [htail]

/-- The effect of the matching loop when every token is matched to itself,
as a fold over the token list. -/
def foldDiag : List LCSTokenInfo → AlignState → AlignState
  | [], st => st
  | t :: ts, st =>
    foldDiag ts ⟨dictAddTo st.mapping t.source_line_id t.source_line_id,
                 incAt st.input_hit t.source_line_id t.length,
                 incAt st.output_hit t.source_line_id t.length⟩

/-- Mapping component of the diagonal fold. -/
def mapFold (ts : List LCSTokenInfo) (m : List (Nat × Finset Nat)) :
    List (Nat × Finset Nat) :=
  ts.foldl (fun m t => dictAddTo m t.source_line_id t.source_line_id) m

/-- Hit-counter component of the diagonal fold. -/
def hitFold (ts : List LCSTokenInfo) (h : List Nat) : List Nat :=
  ts.foldl (fun h t => incAt h t.source_line_id t.length) h

/-- The diagonal fold acts componentwise. -/
theorem foldDiag_components :
    ∀ (ts : List LCSTokenInfo) (m : List (Nat × Finset Nat)) (h1 h2 : List Nat),
      foldDiag ts ⟨m, h1, h2⟩ = ⟨mapFold ts m, hitFold ts h1, hitFold ts h2⟩ := by
  intro ts
  induction ts with
  | nil => intro m h1 h2; rfl
  | cons t ts ih =>
    intro m h1 h2
    show foldDiag ts _ = _
    rw [ih]
    rfl

/-- Adding to an absent key appends the new entry. -/
theorem dictAddTo_absent :
    ∀ (m : List (Nat × Finset Nat)) (k v : Nat),
      (∀ q ∈ m, q.1 ≠ k) → dictAddTo m k v = m ++ [(k, {v})] := by
  intro m
  induction m with
  | nil => intro k v h; rfl
  | cons q m ih =>
    intro k v h
    obtain ⟨k', s⟩ := q
    unfold dictAddTo
    rw [if_neg (h (k', s) (List.mem_cons_self _ _)), ih k v
      (fun q hq => h q (List.mem_cons_of_mem _ hq))]
    rfl

/-- Adding to the key of a trailing entry updates it in place. -/
theorem dictAddTo_last :
    ∀ (m : List (Nat × Finset Nat)) (k v : Nat) (s : Finset Nat),
      (∀ q ∈ m, q.1 ≠ k) →
      dictAddTo (m ++ [(k, s)]) k v = m ++ [(k, insert v s)] := by
  intro m
  induction m with
  | nil =>
    intro k v s h
    show dictAddTo [(k, s)] k v = _
    unfold dictAddTo
    rw [if_pos rfl]
    rfl
  | cons q m ih =>
    intro k v s h
    obtain ⟨k', s'⟩ := q
    show dictAddTo ((k', s') :: (m ++ [(k, s)])) k v = _
    unfold dictAddTo
    rw [if_neg (h (k', s') (List.mem_cons_self _ _)), ih k v s
      (fun q hq => h q (List.mem_cons_of_mem _ hq))]
    rfl

/-- All keys of the prefix mapping are below the current line id. -/
theorem rangeMap_keys_ne (k : Nat) :
    ∀ q ∈ (List.range k).map (fun p => (p, ({p} : Finset Nat))), q.1 ≠ k := by
  intro q hq
  obtain ⟨p, hp, rfl⟩ := List.mem_map.mp hq
  have h2 := List.mem_range.mp hp
  omega

/-- Folding the tokens of one (non-empty) line into the prefix mapping adds
exactly the singleton group of that line. -/
theorem mapFold_line (k : Nat) (sym : String → Nat) :
    ∀ (ws : List String), ws ≠ [] →
      mapFold (ws.map (fun w => (⟨sym w, w.length, k⟩ : LCSTokenInfo)))
        ((List.range k).map (fun p => (p, ({p} : Finset Nat)))) =
      (List.range (k + 1)).map (fun p => (p, ({p} : Finset Nat))) := by
  have hstay : ∀ (ws' : List String) (m : List (Nat × Finset Nat)),
      (∀ q ∈ m, q.1 ≠ k) →
      mapFold (ws'.map (fun w => (⟨sym w, w.length, k⟩ : LCSTokenInfo)))
        (m ++ [(k, ({k} : Finset Nat))]) = m ++ [(k, ({k} : Finset Nat))] := by
    intro ws'
    induction ws' with
    | nil => intro m h; rfl
    | cons w ws' ih =>
      intro m h
      show mapFold _ (dictAddTo (m ++ [(k, {k})]) k k) = _
      rw [dictAddTo_last m k k {k} h,
        Finset.insert_eq_self.mpr (Finset.mem_singleton_self k)]
      exact ih m h
  intro ws hws
  cases ws with
  | nil => exact absurd rfl hws
  | cons w ws =>
    show mapFold _ (dictAddTo ((List.range k).map (fun p => (p, {p}))) k k) = _
    rw [dictAddTo_absent _ k k (rangeMap_keys_ne k), hstay ws _ (rangeMap_keys_ne k),
      List.range_succ, List.map_append]
    rfl

/-- Folding the tokens of all remaining (non-empty) lines extends the prefix
mapping to one singleton group per line. -/
theorem mapFold_lines (sym : String → Nat) :
    ∀ (M : List String) (k : Nat), (∀ l ∈ M, pySplit l ≠ []) →
      mapFold (diagTokens sym (List.enumFrom k M))
        ((List.range k).map (fun p => (p, ({p} : Finset Nat)))) =
      (List.range (k + M.length)).map (fun p => (p, ({p} : Finset Nat))) := by
  intro M
  induction M with
  | nil => intro k h; rfl
  | cons line M ih =>
    intro k h
    show mapFold (diagTokens sym ((k, line) :: List.enumFrom (k + 1) M)) _ = _
    unfold diagTokens mapFold
    rw [List.flatMap_cons, List.foldl_append]
    have hline := mapFold_line k sym (pySplit line) (h line (List.mem_cons_self _ _))
    unfold mapFold at hline
    dsimp only
    rw [hline]
    have htail := ih (k + 1) (fun l hl => h l (List.mem_cons_of_mem _ hl))
    unfold diagTokens mapFold at htail
    rw [htail]
    have harith : k + 1 + M.length = k + (M.length + 1) := by omega
    rw [harith]
    rfl

/-- `incAt` at the junction position of a split list. -/
theorem incAt_append (d : Nat) :
    ∀ (A : List Nat) (x : Nat) (B : List Nat),
      incAt (A ++ x :: B) A.length d = A ++ (x + d) :: B := by
  intro A
  induction A with
  | nil => intro x B; rfl
  | cons a A ih =>
    intro x B
    show incAt (a :: (A ++ x :: B)) (A.length + 1) d = _
    have hstep : incAt (a :: (A ++ x :: B)) (A.length + 1) d =
        a :: incAt (A ++ x :: B) A.length d := rfl
    rw [hstep, ih]
    rfl

/-- Folding one line's tokens accumulates that line's total word length at
its own position. -/
theorem hitFold_line (sym : String → Nat) :
    ∀ (ws : List String) (A : List Nat) (x : Nat) (B : List Nat),
      hitFold (ws.map (fun w => (⟨sym w, w.length, A.length⟩ : LCSTokenInfo)))
        (A ++ x :: B) =
      A ++ (x + ((ws.map String.length).sum)) :: B := by
  intro ws
  induction ws with
  | nil =>
    intro A x B
    show A ++ x :: B = _
    simp
  | cons w ws ih =>
    intro A x B
    show hitFold _ (incAt (A ++ x :: B) A.length w.length) = _
    rw [incAt_append, ih, List.map_cons, List.sum_cons, Nat.add_assoc]

/-- Folding the tokens of all remaining lines turns the zero counters into
the per-line total word lengths. -/
theorem hitFold_lines (sym : String → Nat) :
    ∀ (M : List String) (H : List Nat),
      hitFold (diagTokens sym (List.enumFrom H.length M))
        (H ++ List.replicate M.length 0) =
      H ++ M.map lineWordLen := by
  intro M
  induction M with
  | nil => intro H; rfl
  | cons line M ih =>
    intro H
    show hitFold (diagTokens sym ((H.length, line) :: List.enumFrom (H.length + 1) M)) _ = _
    unfold diagTokens hitFold
    rw [List.flatMap_cons, List.foldl_append]
    rw [List.length_cons, List.replicate_succ]
    have hline := hitFold_line sym (pySplit line) H 0 (List.replicate M.length 0)
    unfold hitFold at hline
    dsimp only
    rw [hline, Nat.zero_add]
    have hregroup : H ++ ((pySplit line).map String.length).sum ::
        List.replicate M.length 0 =
        (H ++ [((pySplit line).map String.length).sum]) ++
          List.replicate M.length 0 := by
      rw [List.append_assoc]
      rfl
    rw [hregroup]
    have htail := ih (H ++ [((pySplit line).map String.length).sum])
    rw [List.length_append, List.length_singleton] at htail
    unfold diagTokens hitFold at htail
    rw [htail, List.append_assoc]
    rfl

/-- With enough fuel, the LCS length of a list against itself is its length. -/
theorem lcsLenFuel_self :
    ∀ (a : List Nat) (f : Nat), 2 * a.length ≤ f → lcsLenFuel f a a = a.length := by
  intro a
  induction a with
  | nil => intro f h; cases f <;> rfl
  | cons x as ih =>
    intro f h
    rw [List.length_cons] at h
    cases f with
    | zero => omega
    | succ f =>
      show lcsLenFuel (f + 1) (x :: as) (x :: as) = as.length + 1
      unfold lcsLenFuel
      rw [if_pos rfl, ih f (by omega)]

/-- The LCS length of a symbol string against itself is its length. -/
theorem lcsLen_self (a : List Nat) : lcsLen a a = a.length := by
  unfold lcsLen
  exact lcsLenFuel_self a (a.length + a.length) (by omega)

/-- A maximal LCS alignment of a string with itself matches every position to
itself. -/
theorem lcs_result_self_id (s : List Nat) (r : List Int)
    (h : IsLcsAlignResult s s r) :
    ∀ i, i < r.length → r.getD i 0 = (i : Int) := by
  obtain ⟨hlen, hval, hmono, hcount⟩ := h
  have hfil : r.filter (fun j => j != -1) = r := by
    apply List.Sublist.eq_of_length (List.filter_sublist r)
    rw [hcount, lcsLen_self, hlen]
  have hne : ∀ i, i < r.length → r.getD i 0 ≠ -1 := by
    intro i hi
    have hmem : r.getD i 0 ∈ r := by
      rw [List.getD_eq_getElem r 0 hi]
      exact List.getElem_mem hi
    have h2 := List.filter_eq_self.mp hfil _ hmem
    simpa using h2
  have hex : ∀ i, i < r.length → ∃ j, j < s.length ∧ r.getD i 0 = (j : Int) := by
    intro i hi
    rcases hval i hi with h1 | ⟨j, hj, e, -⟩
    · exact absurd h1 (hne i hi)
    · exact ⟨j, hj, e⟩
  have hlow : ∀ i, i < r.length → (i : Int) ≤ r.getD i 0 := by
    intro i
    induction i with
    | zero =>
      intro hi
      obtain ⟨j, -, e⟩ := hex 0 hi
      rw [e]
      exact Int.ofNat_nonneg j
    | succ i ih =>
      intro hi
      have hi0 : i < r.length := by omega
      have h1 := ih hi0
      have h2 := hmono (i + 1) hi i (by omega) (hne i hi0) (hne (i + 1) hi)
      omega
  have hup : ∀ d i, i < r.length → i + d + 1 = r.length → r.getD i 0 ≤ (i : Int) := by
    intro d
    induction d with
    | zero =>
      intro i hi he
      obtain ⟨j, hj, e⟩ := hex i hi
      rw [e]
      have hcast : j ≤ i := by omega
      exact_mod_cast hcast
    | succ d ih =>
      intro i hi he
      have hi1 : i + 1 < r.length := by omega
      have h1 := ih (i + 1) hi1 (by omega)
      have h2 := hmono (i + 1) hi1 i (by omega) (hne i hi) (hne (i + 1) hi1)
      omega
  intro i hi
  have h1 := hlow i hi
  obtain ⟨d, hd⟩ : ∃ d, i + d + 1 = r.length := ⟨r.length - i - 1, by omega⟩
  have h2 := hup d i hi hd
  omega

/-- A maximal LCS self-alignment is the identity index list. -/
theorem lcs_result_self_eq_range (s : List Nat) (r : List Int)
    (h : IsLcsAlignResult s s r) :
    r = (List.range s.length).map (fun (i : Nat) => (i : Int)) := by
  have hlen : r.length = s.length := h.1
  apply List.ext_get?
  intro n
  by_cases hn : n < r.length
  · rw [List.get?_eq_get hn]
    have hid := lcs_result_self_id s r h n hn
    have hg : r.get ⟨n, hn⟩ = r.getD n 0 := by
      rw [List.getD_eq_getElem r 0 hn]
      rfl
    rw [hg, hid]
    have hn2 : n < s.length := by omega
    rw [List.get?_map, List.get?_range hn2]
    rfl
  · have h1 : r.get? n = none := List.get?_eq_none.mpr (by omega)
    have h2 : ((List.range s.length).map (fun (i : Nat) => (i : Int))).get? n = none := by
      apply List.get?_eq_none.mpr
      rw [List.length_map, List.length_range]
      omega
    rw [h1, h2]

/-- Enumerating the identity index list pairs each position with itself. -/
theorem enumFrom_range'_map :
    ∀ (n k : Nat), List.enumFrom k ((List.range' k n).map (fun (i : Nat) => (i : Int))) =
      (List.range' k n).map (fun (i : Nat) => (i, (i : Int))) := by
  intro n
  induction n with
  | zero => intro k; rfl
  | succ n ih =>
    intro k
    show List.enumFrom k ((k :: List.range' (k + 1) n).map (fun (i : Nat) => (i : Int))) = _
    rw [List.map_cons]
    show (k, (k : Int)) :: List.enumFrom (k + 1)
      ((List.range' (k + 1) n).map (fun (i : Nat) => (i : Int))) = _
    rw [ih (k + 1)]
    rfl

/-- Version of `enumFrom_range'_map` for `List.enum` over `List.range`. -/
theorem enum_range_map (n : Nat) :
    ((List.range n).map (fun (i : Nat) => (i : Int))).enum =
      (List.range n).map (fun (i : Nat) => (i, (i : Int))) := by
  rw [List.range_eq_range']
  exact enumFrom_range'_map n 0

/-- The matching loop over the identity alignment is the diagonal fold. -/
theorem accumAlign_diag (toks : List LCSTokenInfo) :
    ∀ (m k : Nat) (st : AlignState), k + m = toks.length →
      accumAlign toks toks ((List.range' k m).map (fun (i : Nat) => (i, (i : Int)))) st =
        some (foldDiag (toks.drop k) st) := by
  intro m
  induction m with
  | zero =>
    intro k st hk
    have hdrop : toks.drop k = [] := List.drop_eq_nil_of_le (by omega)
    rw [hdrop]
    rfl
  | succ m ih =>
    intro k st hk
    show accumAlign toks toks ((k, (k : Int)) ::
      (List.range' (k + 1) m).map (fun (i : Nat) => (i, (i : Int)))) st = _
    unfold accumAlign
    rw [if_neg (by omega : ¬ ((k : Int) = -1))]
    have hklt : k < toks.length := by omega
    rw [List.get?_eq_get hklt]
    have hpy : pyGetInt toks ((k : Nat) : Int) = some (toks.get ⟨k, hklt⟩) := by
      unfold pyGetInt
      rw [if_pos (Int.ofNat_nonneg k), Int.toNat_natCast]
      exact List.get?_eq_get hklt
    rw [hpy]
    show accumAlign toks toks ((List.range' (k + 1) m).map (fun (i : Nat) => (i, (i : Int)))) _ = _
    rw [ih (k + 1) _ (by omega)]
    have hdrop := List.drop_eq_getElem_cons hklt
    rw [hdrop]
    rfl

/-- Normalizing the per-line totals against themselves gives all-ones rates. -/
theorem normalizeRates_self :
    ∀ (M : List String), (∀ l ∈ M, lineWordLen l ≠ 0) →
      normalizeRates (M.map lineWordLen) M =
        some (List.replicate M.length (1 : ℚ)) := by
  intro M
  induction M with
  | nil => intro h; rfl
  | cons line M ih =>
    intro h
    show normalizeRates (lineWordLen line :: M.map lineWordLen) (line :: M) = _
    unfold normalizeRates
    rw [if_neg (h line (List.mem_cons_self _ _))]
    rw [ih (fun l hl => h l (List.mem_cons_of_mem _ hl))]
    rw [div_self (by exact_mod_cast h line (List.mem_cons_self _ _) :
      ((lineWordLen line : ℚ) ≠ 0))]
    rfl

/-- The confidence filter does not remove anything when no rate is below the
threshold. -/
theorem popLow_none :
    ∀ (l : List (Nat × ℚ)), (∀ q ∈ l, ¬ q.2 < 3 / 5) →
      ∀ m, popLow l m = m := by
  intro l
  induction l with
  | nil => intro hl m; rfl
  | cons q l ih =>
    intro hl m
    obtain ⟨p, r⟩ := q
    unfold popLow
    rw [if_neg (hl (p, r) (List.mem_cons_self _ _))]
    exact ih (fun q hq => hl q (List.mem_cons_of_mem _ hq)) m

/-- All-ones rate entries are above the threshold. -/
theorem replicate_enum_rates (n : Nat) :
    ∀ q ∈ (List.replicate n (1 : ℚ)).enum, ¬ q.2 < 3 / 5 := by
  intro q hq
  obtain ⟨i, r⟩ := q
  rw [List.enum_eq_zip_range] at hq
  have h2 := (List.of_mem_zip hq).2
  have h3 := List.eq_of_mem_replicate h2
  show ¬ r < 3 / 5
  rw [h3]
  norm_num

/-- The word splitter emits no empty pieces. -/
theorem splitWsAux_ne_nil :
    ∀ (cs acc : List Char), ∀ piece ∈ splitWsAux cs acc, piece ≠ [] := by
  intro cs
  induction cs with
  | nil =>
    intro acc piece hp
    unfold splitWsAux at hp
    by_cases ha : acc = []
    · rw [if_pos ha] at hp
      cases hp
    · rw [if_neg ha] at hp
      rw [List.mem_singleton] at hp
      subst hp
      intro hc
      exact ha (List.reverse_eq_nil_iff.mp hc)
  | cons c cs ih =>
    intro acc piece hp
    unfold splitWsAux at hp
    by_cases hw : c.isWhitespace = true
    · rw [if_pos hw] at hp
      by_cases ha : acc = []
      · rw [if_pos ha] at hp
        exact ih [] piece hp
      · rw [if_neg ha] at hp
        rcases List.mem_cons.mp hp with rfl | h2
        · intro hc
          exact ha (List.reverse_eq_nil_iff.mp hc)
        · exact ih [] piece h2
    · rw [if_neg hw] at hp
      exact ih (c :: acc) piece hp

/-- A line with at least one word has a non-zero total word length. -/
theorem lineWordLen_ne_zero (line : String) (h : pySplit line ≠ []) :
    lineWordLen line ≠ 0 := by
  unfold lineWordLen
  cases hp : pySplit line with
  | nil => exact absurd hp h
  | cons w ws =>
    have hw : w ∈ pySplit line := by
      rw [hp]
      exact List.mem_cons_self _ _
    unfold pySplit at hw
    obtain ⟨piece, hpiece, rfl⟩ := List.mem_map.mp hw
    have hne := splitWsAux_ne_nil line.data [] piece hpiece
    have hlen : (String.mk piece).length ≠ 0 := by
      intro hc
      exact hne (List.length_eq_zero.mp hc)
    rw [List.map_cons, List.sum_cons]
    omega

/-- The tokenizer's dictionary is the first-seen de-duplication of the
input-side word stream. -/
theorem inputWordDict_eq_firstSeen (offset : Nat) (input_lines : List String) :
    inputWordDict offset input_lines = firstSeen (input_lines.flatMap pySplit) := by
  show (procInputLines offset input_lines.enum ([], [])).1 = _
  rw [procInputLines_dict, flatMap_snd_eq, List.enum_map_snd]
  rfl

/-- For identical line lists, the token sequence has the per-line mapped
shape for some symbol assignment. -/
theorem tokenize_self_shape (L : List String) :
    ∃ sym : String → Nat,
      (tokenize_for_lcs L L).1 = diagTokens sym L.enum := by
  refine ⟨fun w => 0 + ((inputWordDict 0 L).findIdx? (fun x => x = w)).getD 0, ?_⟩
  show (tokenize_by_space_splited_word L L 0).1 = _
  rw [← tokenize_self_eq 0 L]
  show procOutputEnum 0 (inputWordDict 0 L) L.enum = _
  apply procOutputEnum_eq_diagTokens
  intro p hp w hw
  have hmemL : p.2 ∈ L := by
    have h2 := List.enum_map_snd L
    rw [← h2]
    exact List.mem_map_of_mem Prod.snd hp
  have hmem : w ∈ inputWordDict 0 L := by
    rw [inputWordDict_eq_firstSeen]
    apply mem_firstSeen
    exact List.mem_flatMap.mpr ⟨p.2, hmemL, hw⟩
  cases hf : (inputWordDict 0 L).findIdx? (fun x => x = w) with
  | some j => exact ⟨j, rfl⟩
  | none =>
    have h2 := List.findIdx?_eq_none_iff.mp hf w hmem
    simp at h2

/-! Claim theorems. -/

/-- C1: the claim that for every non-empty line sequence the detection loop
terminates and the run reaches `DONE` (returns its decision vector) fails on
the code: on this single-line document the batch passes the noise floor, and
the loop body then invokes dict methods on the 3-tuple bound to `align_map`,
raising `AttributeError`, so the run aborts instead of reaching `DONE`. -/
theorem detect_single_line_raises :
    detect (fun s => (pySplit s).length) 1400
      (fun a _ => List.replicate a.length (-1)) (fun t _ _ => t)
      ["a a a a a a a a a a a a a a a a a a a a"] "doc1" =
      (none, [("doc1", 0)]) := by decide

/-- C2: the claim that `detect` always returns a decision vector of length
`len(lines) - 1` fails on the code: on this two-line document (whose single
batch reaches the document end) the run raises `AttributeError` when
`align_map.values()` is invoked on the 3-tuple bound to `align_map`, so no
vector is returned at all. -/
theorem detect_returns_no_vector :
    detect (fun s => (pySplit s).length) 1400
      (fun a _ => List.replicate a.length (-1)) (fun t _ _ => t)
      ["a a a a a a a a a a a a", "b b b b b b b b b b"] "doc2" =
      (none, [("doc2", 0)]) := by decide

/-- C3 counterexample: `gen_batch` does not emit an oversized first line as a
single-line batch; when even the first line alone reaches the token budget it
returns the still-empty buffer (an empty text) with `endId = startId`,
contradicting the claimed non-empty guarantee. -/
theorem gen_batch_oversized_first_line_returns_empty :
    gen_batch String.length 5 ["abcdefgh"] 0 = some ("", 0) := by decide

/-- C3 amended: whenever `gen_batch` returns a batch, the batch text was
admitted strictly under the token budget or is the empty string (the
overflowing line is excluded even when it is the very first line, in which
case the returned text is empty). -/
theorem gen_batch_under_budget_or_empty (enc : String → Nat) (limit : Nat)
    (lines : List String) (begin_lineid : Nat) (t : String) (e : Nat)
    (h : gen_batch enc limit lines begin_lineid = some (t, e)) :
    enc t < limit ∨ t = "" := by
  unfold gen_batch at h
  split at h
  · exact genBatchLoop_budget enc limit (lines.drop begin_lineid) begin_lineid ""
      t e (Or.inl rfl) h
  · exact absurd h (by simp)

/-- C3 witness: a concrete two-line call returning the batch `"ab"`, whose
token count is under the budget. -/
theorem gen_batch_under_budget_or_empty_witness :
    gen_batch String.length 5 ["ab", "cd"] 0 = some ("ab", 1) ∧
    (String.length "ab" < 5 ∨ "ab" = "") :=
  ⟨by decide,
   gen_batch_under_budget_or_empty String.length 5 ["ab", "cd"] 0 "ab" 1 (by decide)⟩

/-- C4: the claim that a non-final batch discards the highest-output-id group
and retreats the cursor fails on the code: in this two-line document the first
batch stops before the last line (`next_line_id < len(lines)`), and the code
then evaluates `align_map.keys()` on the 3-tuple bound to `align_map`,
raising `AttributeError`; no group is discarded and no cursor update ever
happens. -/
theorem detect_nonfinal_batch_raises :
    detect (fun s => (pySplit s).length) 21
      (fun a _ => List.replicate a.length (-1)) (fun t _ _ => t)
      ["a a a a a a a a a a a a a a a a a a a a", "b b b"] "doc4" =
      (none, [("doc4", 0)]) := by decide

/-- C5: the claim that `lcs_sequence_alignment` never divides by zero fails on
the code: a whitespace-only input line has zero total word length and the
normalization `input_hit_rate[p] /= sum(map(len, input_lines[p].split()))`
raises `ZeroDivisionError` (modelled by `none`). -/
theorem lcs_alignment_zero_word_line_raises :
    lcs_sequence_alignment (fun a _ => List.replicate a.length (-1))
      ["a", " "] ["a"] = none := by decide

/-- C8 counterexample: an empty document is not rejected; `detect` returns the
empty decision vector (and consults no oracle), contradicting the claimed
fail-fast error. -/
theorem detect_empty_doc_returns_result :
    detect (fun s => (pySplit s).length) 1400
      (fun a _ => List.replicate a.length (-1)) (fun t _ _ => t) [] "doc8" =
      (some [], []) := by decide

/-- C8 amended: for an empty document `detect` returns the empty decision
vector immediately — the loop body never runs, no batch is built and the
oracle is never consulted — rather than failing fast with an error. -/
theorem detect_empty_doc_no_batch (enc : String → Nat) (token_limit : Nat)
    (lcsIdx : List Nat → List Nat → List Int)
    (gpt_request : String → String → Nat → String) (record_id : String) :
    detect enc token_limit lcsIdx gpt_request [] record_id = (some [], []) := rfl

/-- C7: the claim that the batch counter advances monotonically (the i-th
oracle request keyed by batch index i) fails on the code: `batch_id` is
initialized to 0 and never incremented, so every oracle request a `detect`
run ever issues is keyed `(record_id, 0)` — distinct batches of one document
would share one cache key.  (The run additionally aborts with
`AttributeError` after the first alignment, so at most one request occurs.) -/
theorem detect_requests_use_batch_index_zero (enc : String → Nat)
    (token_limit : Nat) (lcsIdx : List Nat → List Nat → List Int)
    (gpt_request : String → String → Nat → String)
    (lines : List String) (record_id : String) (k : String × Nat)
    (hk : k ∈ (detect enc token_limit lcsIdx gpt_request lines record_id).2) :
    k = (record_id, 0) := by
  simp only [detect] at hk
  repeat (any_goals (split at hk))
  all_goals simp_all

/-- C7 witness: a concrete run whose (single) logged oracle request is keyed
`("doc7", 0)`. -/
theorem detect_requests_use_batch_index_zero_witness :
    (("doc7", 0) : String × Nat) ∈
      (detect (fun s => (pySplit s).length) 1400
        (fun a _ => List.replicate a.length (-1)) (fun t _ _ => t)
        ["c c c c c c c c c c c c c c c c c c c c"] "doc7").2 ∧
    (("doc7", 0) : String × Nat) = ("doc7", 0) :=
  ⟨by decide,
   detect_requests_use_batch_index_zero (fun s => (pySplit s).length) 1400
     (fun a _ => List.replicate a.length (-1)) (fun t _ _ => t)
     ["c c c c c c c c c c c c c c c c c c c c"] "doc7" ("doc7", 0) (by decide)⟩

/-- C6: after `lcs_sequence_alignment` returns (successfully), no output line
whose normalized hit rate is strictly below 0.6 appears as a key in the
returned groups mapping: its entry was removed by the confidence filter. -/
theorem lcs_alignment_low_rate_keys_removed
    (lcsIdx : List Nat → List Nat → List Int)
    (input_lines output_lines : List String)
    (m : List (Nat × Finset Nat)) (irate orate : List ℚ)
    (h : lcs_sequence_alignment lcsIdx input_lines output_lines =
      some (m, irate, orate))
    (p : Nat) (r : ℚ) (hg : orate.get? p = some r) (hr : r < 3 / 5)
    (s : Finset Nat) : (p, s) ∉ m := by
  simp only [lcs_sequence_alignment] at h
  split at h
  · exact absurd h (by simp)
  · split at h
    · simp only [Option.some.injEq, Prod.mk.injEq] at h
      obtain ⟨hm, -, hor⟩ := h
      subst hm
      subst hor
      exact not_mem_popLow _ _ p r (get?_mem_enum _ p r hg) hr s
    · exact absurd h (by simp)

/-- C6 witness: input `["a a a a a"]`, oracle output `["a", "b b b a"]`,
with the LCS matching input words 0 and 1; output line 1 has hit rate
1/4 < 0.6 and its entry `(1, {1})` is removed from the mapping. -/
theorem lcs_alignment_low_rate_keys_removed_witness :
    ((1 : Nat) : ℚ) / ((4 : Nat) : ℚ) < 3 / 5 ∧
    ((1 : Nat), ({0} : Finset Nat)) ∉
      popLow ([((1 : Nat) : ℚ) / ((1 : Nat) : ℚ),
               ((1 : Nat) : ℚ) / ((4 : Nat) : ℚ)].enum)
        [(0, {0}), (1, {0})] := by
  have heval : lcs_sequence_alignment (fun _ _ => [0, 1, -1, -1, -1])
      ["a a a a a"] ["a", "b b b a"] =
      some (popLow ([((1 : Nat) : ℚ) / ((1 : Nat) : ℚ),
                     ((1 : Nat) : ℚ) / ((4 : Nat) : ℚ)].enum)
              [(0, {0}), (1, {0})],
            [((2 : Nat) : ℚ) / ((5 : Nat) : ℚ)],
            [((1 : Nat) : ℚ) / ((1 : Nat) : ℚ),
             ((1 : Nat) : ℚ) / ((4 : Nat) : ℚ)]) := rfl
  exact ⟨by norm_num,
    lcs_alignment_low_rate_keys_removed (fun _ _ => [0, 1, -1, -1, -1])
      ["a a a a a"] ["a", "b b b a"] _ _ _ heval
      1 (((1 : Nat) : ℚ) / ((4 : Nat) : ℚ)) rfl (by norm_num) {0}⟩

/-- C10: the tokenizer's word dictionary is built only from the input-side
words, in first-seen order (first conjunct), and every output-side word
absent from that dictionary is dropped, so every returned output token's
symbol also occurs among the input tokens' symbols (second conjunct). -/
theorem tokenize_symbols_from_input_dict (input_lines output_lines : List String)
    (offset : Nat) :
    inputWordDict offset input_lines = firstSeen (input_lines.flatMap pySplit) ∧
    ∀ t ∈ (tokenize_by_space_splited_word input_lines output_lines offset).2,
      ∃ u ∈ (tokenize_by_space_splited_word input_lines output_lines offset).1,
        u.token = t.token := by
  constructor
  · exact inputWordDict_eq_firstSeen offset input_lines
  · intro t ht
    have hcov := procInputLines_covered offset input_lines.enum [] []
      (by intro id hid; simp at hid)
    exact procOutputEnum_symbol_covered offset _ output_lines.enum _ hcov t ht

/-- C10 witness: with input `["a b"]` and output `["b c"]`, the single output
token (for the word `b`, the word `c` being dropped) has the symbol of the
input token for `b`. -/
theorem tokenize_symbols_from_input_dict_witness :
    ∃ u ∈ (tokenize_by_space_splited_word ["a b"] ["b c"] 0).1,
      u.token = (⟨1, 1, 0⟩ : LCSTokenInfo).token :=
  (tokenize_symbols_from_input_dict ["a b"] ["b c"] 0).2 ⟨1, 1, 0⟩ (by decide)

/-- C9: for every line list whose lines each contain at least one word, when
the oracle output equals the input and the LCS collaborator returns a valid
maximal alignment, `lcs_sequence_alignment` yields hit rate 1 for every line
on both sides and maps each output line `p` to the singleton input set `{p}`. -/
theorem lcs_alignment_identity (L : List String)
    (lcsIdx : List Nat → List Nat → List Int)
    (hwords : ∀ l ∈ L, pySplit l ≠ [])
    (hlcs : IsLcsAlignResult
      ((tokenize_for_lcs L L).1.map LCSTokenInfo.token)
      ((tokenize_for_lcs L L).2.map LCSTokenInfo.token)
      (lcsIdx ((tokenize_for_lcs L L).1.map LCSTokenInfo.token)
        ((tokenize_for_lcs L L).2.map LCSTokenInfo.token))) :
    lcs_sequence_alignment lcsIdx L L =
      some ((List.range L.length).map (fun p => (p, ({p} : Finset Nat))),
            List.replicate L.length (1 : ℚ),
            List.replicate L.length (1 : ℚ)) := by
  have hTT : (tokenize_for_lcs L L).2 = (tokenize_for_lcs L L).1 :=
    tokenize_self_eq 0 L
  rw [hTT] at hlcs
  have hr := lcs_result_self_eq_range _ _ hlcs
  obtain ⟨sym, hshape⟩ := tokenize_self_shape L
  have hmap : mapFold (diagTokens sym L.enum) [] =
      (List.range L.length).map (fun p => (p, ({p} : Finset Nat))) := by
    have h0 := mapFold_lines sym L 0 hwords
    simpa [List.enum] using h0
  have hhit : hitFold (diagTokens sym L.enum) (List.replicate L.length 0) =
      L.map lineWordLen := by
    have h0 := hitFold_lines sym L []
    simpa [List.enum] using h0
  have hnorm : normalizeRates (L.map lineWordLen) L =
      some (List.replicate L.length (1 : ℚ)) :=
    normalizeRates_self L (fun l hl => lineWordLen_ne_zero l (hwords l hl))
  simp only [lcs_sequence_alignment]
  rw [hTT, hr, List.length_map, enum_range_map, List.range_eq_range']
  rw [accumAlign_diag ((tokenize_for_lcs L L).1) ((tokenize_for_lcs L L).1.length)
    0 ⟨[], List.replicate L.length 0, List.replicate L.length 0⟩
    (Nat.zero_add _)]
  rw [List.drop_zero, hshape, foldDiag_components]
  dsimp only
  rw [hhit, hnorm]
  dsimp only
  rw [hmap, popLow_none _ (replicate_enum_rates L.length) _]

/-- C9 witness: the one-line document `["ab"]` with the (valid, maximal) LCS
result `[0]` yields hit rates `[1]` on both sides and the mapping `0 ↦ {0}`. -/
theorem lcs_alignment_identity_witness :
    lcs_sequence_alignment (fun _ _ => [0]) ["ab"] ["ab"] =
      some ((List.range 1).map (fun p => (p, ({p} : Finset Nat))),
            List.replicate 1 (1 : ℚ), List.replicate 1 (1 : ℚ)) :=
  lcs_alignment_identity ["ab"] (fun _ _ => [0]) (by decide) (by decide)

end BatchSequentialDetector
